import Mathlib

/-!
Verification of the go-merkletree library (package gomerkletree and its
pkg/hashing helper) against its specification.

The Go code is shallowly embedded:
* bytes are lists of naturals in [0, 256); a nil byte slice and an empty one
  are both the empty list (Go bytes.Equal identifies them);
* the pointer-linked node graph is an arena, a list of nodes addressed by
  index, with child and parent pointers as optional indices (a nil pointer is
  none); pointer identity becomes index equality;
* crypto/sha256 is implemented in full (padding, schedule, compression);
* Go loops that mutate local state become fuel-indexed structural recursions;
  every fuel is the one under which the corresponding Go loop terminates.
-/

set_option maxRecDepth 100000

namespace GoMerkleTree

/-- Bytes as Go byte slices: lists of naturals in [0, 256). -/
abbrev Bytes := List Nat

/-! SHA-256, modelling Go crypto/sha256 as used by pkg/hashing.HashSHA256 -/

/-- Truncation to a 32-bit word. -/
def w32 (x : Nat) : Nat := x % 4294967296

/-- 32-bit right rotation. -/
def rotr (n x : Nat) : Nat := w32 ((x >>> n) ||| (x <<< (32 - n)))

/-- SHA-256 choice function. -/
def ch (x y z : Nat) : Nat := (x &&& y) ^^^ ((x ^^^ 4294967295) &&& z)

/-- SHA-256 majority function. -/
def maj (x y z : Nat) : Nat := (x &&& y) ^^^ (x &&& z) ^^^ (y &&& z)

/-- SHA-256 big sigma 0. -/
def bsig0 (x : Nat) : Nat := rotr 2 x ^^^ rotr 13 x ^^^ rotr 22 x

/-- SHA-256 big sigma 1. -/
def bsig1 (x : Nat) : Nat := rotr 6 x ^^^ rotr 11 x ^^^ rotr 25 x

/-- SHA-256 small sigma 0. -/
def ssig0 (x : Nat) : Nat := rotr 7 x ^^^ rotr 18 x ^^^ (x >>> 3)

/-- SHA-256 small sigma 1. -/
def ssig1 (x : Nat) : Nat := rotr 17 x ^^^ rotr 19 x ^^^ (x >>> 10)

/-- SHA-256 round constants. -/
def K256 : List Nat :=
  [1116352408, 1899447441, 3049323471, 3921009573,
   961987163, 1508970993, 2453635748, 2870763221,
   3624381080, 310598401, 607225278, 1426881987,
   1925078388, 2162078206, 2614888103, 3248222580,
   3835390401, 4022224774, 264347078, 604807628,
   770255983, 1249150122, 1555081692, 1996064986,
   2554220882, 2821834349, 2952996808, 3210313671,
   3336571891, 3584528711, 113926993, 338241895,
   666307205, 773529912, 1294757372, 1396182291,
   1695183700, 1986661051, 2177026350, 2456956037,
   2730485921, 2820302411, 3259730800, 3345764771,
   3516065817, 3600352804, 4094571909, 275423344,
   430227734, 506948616, 659060556, 883997877,
   958139571, 1322822218, 1537002063, 1747873779,
   1955562222, 2024104815, 2227730452, 2361852424,
   2428436474, 2756734187, 3204031479, 3329325298]

/-- Split a list into chunks of k elements (fuel-indexed; the fuel is the
list length, always sufficient). -/
def chunkAux (k : Nat) : Nat → List Nat → List (List Nat)
  | 0, _ => []
  | _, [] => []
  | fuel + 1, x :: xs => (x :: xs.take (k - 1)) :: chunkAux k fuel (xs.drop (k - 1))

/-- Split a list into chunks of k elements. -/
def chunk (k : Nat) (l : List Nat) : List (List Nat) := chunkAux k l.length l

/-- Big-endian word from a list of bytes. -/
def wordOf (l : List Nat) : Nat := l.foldl (fun a b => a * 256 + b) 0

/-- Big-endian bytes of a 32-bit word. -/
def wordToBytes (x : Nat) : List Nat :=
  [(x >>> 24) % 256, (x >>> 16) % 256, (x >>> 8) % 256, x % 256]

/-- k big-endian bytes of a natural number. -/
def natToBytesBE : Nat → Nat → List Nat
  | 0, _ => []
  | k + 1, x => natToBytesBE k (x / 256) ++ [x % 256]

/-- SHA-256 message padding: 0x80, zeros to 56 mod 64, 64-bit big-endian
bit length. -/
def padMessage (msg : List Nat) : List Nat :=
  let L := msg.length
  let k := (119 - L % 64) % 64
  msg ++ [128] ++ List.replicate k 0 ++ natToBytesBE 8 ((8 * L) % 18446744073709551616)

/-- One step of the SHA-256 message-schedule extension. -/
def schedStep (w : List Nat) (_ : Nat) : List Nat :=
  let n := w.length
  w ++ [w32 (ssig1 (w.getD (n - 2) 0) + w.getD (n - 7) 0 + ssig0 (w.getD (n - 15) 0) + w.getD (n - 16) 0)]

/-- SHA-256 message schedule: extend 16 words to 64. -/
def schedule (w0 : List Nat) : List Nat := (List.range 48).foldl schedStep w0

/-- The eight 32-bit working variables of SHA-256. -/
abbrev Hash8 := Nat × Nat × Nat × Nat × Nat × Nat × Nat × Nat

/-- One SHA-256 compression round. -/
def compressStep (st : Hash8) (kw : Nat × Nat) : Hash8 :=
  let (a, b, c, d, e, f, g, hh) := st
  let t1 := w32 (hh + bsig1 e + ch e f g + kw.1 + kw.2)
  let t2 := w32 (bsig0 a + maj a b c)
  (w32 (t1 + t2), a, b, c, w32 (d + t1), e, f, g)

/-- Process one 64-byte block. -/
def processBlock (st : Hash8) (block : List Nat) : Hash8 :=
  let ws := schedule ((chunk 4 block).map wordOf)
  let r := (K256.zip ws).foldl compressStep st
  (w32 (st.1 + r.1), w32 (st.2.1 + r.2.1), w32 (st.2.2.1 + r.2.2.1), w32 (st.2.2.2.1 + r.2.2.2.1),
   w32 (st.2.2.2.2.1 + r.2.2.2.2.1), w32 (st.2.2.2.2.2.1 + r.2.2.2.2.2.1),
   w32 (st.2.2.2.2.2.2.1 + r.2.2.2.2.2.2.1), w32 (st.2.2.2.2.2.2.2 + r.2.2.2.2.2.2.2))

/-- SHA-256 initial hash state. -/
def initH : Hash8 :=
  (1779033703, 3144134277, 1013904242, 2773480762, 1359893119, 2600822924, 528734635, 1541459225)

/-- Big-endian bytes of the final state. -/
def digestBytes (st : Hash8) : Bytes :=
  wordToBytes st.1 ++ wordToBytes st.2.1 ++ wordToBytes st.2.2.1 ++ wordToBytes st.2.2.2.1 ++
  wordToBytes st.2.2.2.2.1 ++ wordToBytes st.2.2.2.2.2.1 ++ wordToBytes st.2.2.2.2.2.2.1 ++
  wordToBytes st.2.2.2.2.2.2.2

/-- pkg/hashing.HashSHA256: the SHA-256 digest of a byte slice
(sha256.New, Write, Sum from Go crypto/sha256). -/
def HashSHA256 (b : Bytes) : Bytes :=
  digestBytes ((chunk 64 (padMessage b)).foldl processBlock initH)

example : HashSHA256 [] =
    [227, 176, 196, 66, 152, 252, 28, 20,
     154, 251, 244, 200, 153, 111, 185, 36,
     39, 174, 65, 228, 100, 155, 147, 76,
     164, 149, 153, 27, 120, 82, 184, 85] := by
  decide

example : HashSHA256 [97, 98, 99] =
    [186, 120, 22, 191, 143, 1, 207, 234,
     65, 65, 64, 222, 93, 174, 34, 35,
     176, 3, 97, 163, 150, 23, 122, 156,
     180, 16, 255, 97, 242, 0, 21, 173] := by
  decide

/-! The node graph (merkletree.go)

A Go Node is a heap object linked by pointers; here the heap is an arena
(list of nodes) and pointers are indices. -/

/-- merkletree.go Node: hash, child pointers, parent back-pointer. -/
structure Node where
  h : Bytes
  left : Option Nat
  right : Option Nat
  parent : Option Nat

/-- The zero/absent node (a dangling index dereferences to it; it matches a
Go Node zero value, whose nil hash equals the empty slice under bytes.Equal). -/
def dNode : Node := ⟨[], none, none, none⟩

/-- Dereference an arena index. -/
def nodeAt (arena : List Node) (i : Nat) : Node := arena.getD i dNode

/-- The Go assignment node.parent = p through a pointer. -/
def setParent (arena : List Node) (i p : Nat) : List Node :=
  arena.set i { nodeAt arena i with parent := some p }

/-- merkletree.go HashStrategy: the interface for custom hashing strategies. -/
structure HashStrategy where
  HashLeaf : Bytes → Bytes
  HashInternal : Bytes → Bytes → Bytes

/-- merkletree.go defaultHashStrategy: leaves are prepended with 0x00 and
internal nodes with 0x01 before SHA-256 hashing. -/
def defaultHashStrategy : HashStrategy where
  HashLeaf := fun l => HashSHA256 (0x00 :: l)
  HashInternal := fun l r => HashSHA256 (0x01 :: (l ++ r))

/-- merkletree.go MerkleTree: root pointer, node count, leaf pointers in
input order, and the recorded strategy (an interface value, hence optional). -/
structure MerkleTree where
  arena : List Node
  root : Option Nat
  n : Int
  leaves : List Nat
  hashStrategy : Option HashStrategy

/-- The inner for-loop of buildMerkleTree: pair up adjacent nodes of the
current level left to right, appending one parent node per pair to the arena
and setting the parent pointers of both children; an unpaired last node is carried
over unchanged (promotion). Returns the new arena and the next level. -/
def pairLevel (hash : HashStrategy) : List Node → List Nat → List Node × List Nat
  | arena, a :: b :: rest =>
    let pIdx := arena.length
    let parent : Node := ⟨hash.HashInternal (nodeAt arena a).h (nodeAt arena b).h, some a, some b, none⟩
    let arena2 := setParent (setParent (arena ++ [parent]) a pIdx) b pIdx
    let res := pairLevel hash arena2 rest
    (res.1, pIdx :: res.2)
  | arena, l => (arena, l)

/-- The outer for-loop of buildMerkleTree: reduce levels until one node
remains, accumulating the node count. The fuel bounds the number of rounds;
buildMerkleTree passes the leaf count, which always suffices. Returns the
final arena, the root index, and the node count. -/
def reduceAux (hash : HashStrategy) : Nat → List Node → List Nat → Nat → List Node × Nat × Nat
  | 0, arena, level, n => (arena, level.headD 0, n)
  | fuel + 1, arena, level, n =>
    if level.length ≤ 1 then (arena, level.headD 0, n)
    else
      let res := pairLevel hash arena level
      reduceAux hash fuel res.1 res.2 (n + level.length / 2)

/-- merkletree.go buildMerkleTree: nil on empty input, otherwise hash each
item once into a leaf node, keep the leaf pointers in input order, and reduce
level by level to a single root. -/
def buildMerkleTree (data : List Bytes) (hash : HashStrategy) : Option MerkleTree :=
  if data.isEmpty then none
  else
    let arena0 : List Node := data.map (fun x => ⟨hash.HashLeaf x, none, none, none⟩)
    let level0 := List.range data.length
    let res := reduceAux hash data.length arena0 level0 data.length
    some ⟨res.1, some res.2.1, (res.2.2 : Int), level0, some hash⟩

/-- merkletree.go BuildMerkleTree: build with the default SHA-256 strategy. -/
def BuildMerkleTree (data : List Bytes) : Option MerkleTree :=
  buildMerkleTree data defaultHashStrategy

/-- merkletree.go BuildMerkleTreeWithHashStrategy. -/
def BuildMerkleTreeWithHashStrategy (data : List Bytes) (hash : HashStrategy) : Option MerkleTree :=
  buildMerkleTree data hash

/-- merkletree.go MerkleTree.Root: nil for a nil tree or nil root pointer,
else the hash bytes of the root node. -/
def MerkleTree.Root : Option MerkleTree → Option Bytes
  | none => none
  | some m =>
    match m.root with
    | none => none
    | some r => some (nodeAt m.arena r).h

/-- merkletree.go MerkleTree.Len: -1 for a nil tree, else the node count. -/
def MerkleTree.Len : Option MerkleTree → Int
  | none => -1
  | some m => m.n

/-- merkletree.go Node.verify: an internal node must store the strategy
hash of the hashes of its children and have two recursively valid children; a
childless node is valid; one child is invalid. The fuel bounds the recursion
depth (Go recurses on the pointer structure; on every tree this library
builds, child indices decrease, so arena length is enough fuel). -/
def verifyNode (hash : HashStrategy) (arena : List Node) : Nat → Nat → Bool
  | 0, _ => false
  | fuel + 1, i =>
    let nd := nodeAt arena i
    match nd.left, nd.right with
    | some l, some r =>
      decide (nd.h = hash.HashInternal (nodeAt arena l).h (nodeAt arena r).h)
        && verifyNode hash arena fuel l && verifyNode hash arena fuel r
    | none, none => true
    | _, _ => false

/-- merkletree.go MerkleTree.Verify: false for a nil tree, nil root or nil
strategy, else Node.verify from the root. -/
def MerkleTree.Verify : Option MerkleTree → Bool
  | none => false
  | some m =>
    match m.root, m.hashStrategy with
    | some r, some hash => verifyNode hash m.arena m.arena.length r
    | _, _ => false

/-- The scan loop of VerifyExists: the last leaf pointer whose stored hash
equals the query hash, none when no leaf matches. -/
def findLeaf (arena : List Node) (hash : Bytes) (leaves : List Nat) : Option Nat :=
  leaves.foldl (fun acc l => if (nodeAt arena l).h = hash then some l else acc) none

/-- merkletree.go MerkleTree.VerifyExists: hash the item with the strategy
of the tree, scan the retained leaves for a byte-equal stored hash (keeping the
last match), report "not in tree" on no match, "unable to verify tree" when
the whole-tree Verify fails, else the matched node and no error. The outer
none models the Go panic of dereferencing a nil hashStrategy interface. -/
def MerkleTree.VerifyExists (m : MerkleTree) (x : Bytes) : Option (Option Nat × Option String) :=
  match m.hashStrategy with
  | none => none
  | some hs =>
    let hash := hs.HashLeaf x
    let node := findLeaf m.arena hash m.leaves
    some (match node with
      | none => (none, some "not in tree")
      | some nd =>
        if MerkleTree.Verify (some m) then (some nd, none)
        else (some nd, some "unable to verify tree"))

/-- merkletree.go Node.isLeft: the node has a parent whose left pointer is
this node (pointer identity, here index equality). -/
def isLeft (arena : List Node) (i : Nat) : Bool :=
  match (nodeAt arena i).parent with
  | none => false
  | some p => decide ((nodeAt arena p).left = some i)

/-- The upward loop of MerkleTree.Proof: from a node to the root, collect the
sibling hash and whether that sibling is the left child, leaf-to-root. The
fuel bounds the loop (parent indices increase on built trees, so arena length
is enough fuel). -/
def climb (arena : List Node) : Nat → Nat → List Bytes × List Bool
  | 0, _ => ([], [])
  | fuel + 1, i =>
    match (nodeAt arena i).parent with
    | none => ([], [])
    | some p =>
      let sd : Bytes × Bool :=
        if isLeft arena i then ((nodeAt arena ((nodeAt arena p).right.getD 0)).h, false)
        else ((nodeAt arena ((nodeAt arena p).left.getD 0)).h, true)
      let rest := climb arena fuel p
      (sd.1 :: rest.1, sd.2 :: rest.2)

/-- merkletree.go Proof: root bytes, sibling hashes leaf-to-root, parallel
left-sibling flags, and the strategy that produced it. -/
structure Proof where
  root : Bytes
  siblings : List Bytes
  left : List Bool
  hashStrategy : Option HashStrategy

/-- merkletree.go MerkleTree.Proof: "nil tree" error on a nil receiver,
propagate VerifyExists failures, else climb from the matched leaf collecting
siblings and direction flags, and package them with the root and strategy.
The outer none models a Go panic (nil strategy inside VerifyExists, or a nil
matched node, which VerifyExists never returns on success). -/
def MerkleTree.Proof (mt : Option MerkleTree) (x : Bytes) : Option (Except String Proof) :=
  match mt with
  | none => some (Except.error "nil tree")
  | some m =>
    match m.VerifyExists x with
    | none => none
    | some (_, some e) => some (Except.error e)
    | some (none, none) => none
    | some (some nd, none) =>
      let sd := climb m.arena m.arena.length nd
      some (Except.ok ⟨(MerkleTree.Root mt).getD [], sd.1, sd.2, m.hashStrategy⟩)

/-- The recomputation loop of VerifyProof over (sibling, isLeft) pairs in
leaf-to-root order: a left sibling is hashed on the left of the running hash,
otherwise on the right. -/
def foldPairs (hash : HashStrategy) : Bytes → List (Bytes × Bool) → Bytes
  | acc, [] => acc
  | acc, (sib, isl) :: rest =>
    foldPairs hash (if isl then hash.HashInternal sib acc else hash.HashInternal acc sib) rest

/-- merkletree.go VerifyProof: reject a nil proof or nil strategy, reject
mismatched sibling/direction lengths before hashing, else fold the leaf hash
through the pairs and compare byte-wise with the recorded root. nil error is
success. -/
def VerifyProof (x : Bytes) (p : Option Proof) : Option String :=
  match p with
  | none => some "no proof/hash strategy"
  | some pr =>
    match pr.hashStrategy with
    | none => some "no proof/hash strategy"
    | some hs =>
      if pr.siblings.length ≠ pr.left.length then some "proof lengths mismatch"
      else
        let hash := foldPairs hs (hs.HashLeaf x) (pr.siblings.zip pr.left)
        if hash = pr.root then none else some "root does not match"

/-- The sibling list of a successful proof result. -/
def proofSiblings : Option (Except String Proof) → Option (List Bytes)
  | some (Except.ok p) => some p.siblings
  | _ => none

/-- The direction-flag list of a successful proof result. -/
def proofLeft : Option (Except String Proof) → Option (List Bool)
  | some (Except.ok p) => some p.left
  | _ => none

/-- The recorded root of a successful proof result. -/
def proofRoot : Option (Except String Proof) → Option Bytes
  | some (Except.ok p) => some p.root
  | _ => none

/-- All byte sequences contained in a successful proof result. -/
def proofByteSeqs : Option (Except String Proof) → List Bytes
  | some (Except.ok p) => p.root :: p.siblings
  | _ => []

/-! Arena dereference lemmas -/

theorem nodeAt_of_length_le {A : List Node} {i : Nat} (h : A.length ≤ i) : nodeAt A i = dNode :=
  List.getD_eq_default _ _ h

theorem nodeAt_append {A B : List Node} {i : Nat} (h : i < A.length) :
    nodeAt (A ++ B) i = nodeAt A i :=
  List.getD_append _ _ _ _ h

theorem nodeAt_append_self {A : List Node} {x : Node} : nodeAt (A ++ [x]) A.length = x := by
  unfold nodeAt
  rw [List.getD_append_right _ _ _ _ (Nat.le_refl _)]
  simp

theorem nodeAt_set_self {A : List Node} {i : Nat} (h : i < A.length) (x : Node) :
    nodeAt (A.set i x) i = x := by
  unfold nodeAt
  rw [List.getD_eq_getElem _ _ (by simpa using h)]
  simp

theorem nodeAt_set_ne {A : List Node} {i j : Nat} (h : j ≠ i) (x : Node) :
    nodeAt (A.set i x) j = nodeAt A j := by
  unfold nodeAt List.getD
  rw [List.get?_eq_getElem?, List.get?_eq_getElem?, List.getElem?_set_ne (Ne.symm h)]

theorem length_setParent (A : List Node) (i p : Nat) : (setParent A i p).length = A.length := by
  simp [setParent]

theorem nodeAt_setParent_self {A : List Node} {i : Nat} (h : i < A.length) (p : Nat) :
    nodeAt (setParent A i p) i = { nodeAt A i with parent := some p } :=
  nodeAt_set_self h _

theorem nodeAt_setParent_ne {A : List Node} {i j p : Nat} (h : j ≠ i) :
    nodeAt (setParent A i p) j = nodeAt A j :=
  nodeAt_set_ne h _

/-! Arena evolution during construction -/

/-- Construction only appends nodes and fills in absent parent pointers:
stored hashes, children, and already-set parents survive. -/
def Extends (A B : List Node) : Prop :=
  A.length ≤ B.length ∧
  ∀ i, i < A.length →
    (nodeAt B i).h = (nodeAt A i).h ∧
    (nodeAt B i).left = (nodeAt A i).left ∧
    (nodeAt B i).right = (nodeAt A i).right ∧
    ∀ p, (nodeAt A i).parent = some p → (nodeAt B i).parent = some p

theorem extends_refl (A : List Node) : Extends A A :=
  ⟨Nat.le_refl _, fun _ _ => ⟨rfl, rfl, rfl, fun _ hp => hp⟩⟩

theorem extends_trans {A B C : List Node} (h1 : Extends A B) (h2 : Extends B C) : Extends A C := by
  obtain ⟨hl1, hf1⟩ := h1
  obtain ⟨hl2, hf2⟩ := h2
  refine ⟨Nat.le_trans hl1 hl2, fun i hi => ?_⟩
  obtain ⟨e1, e2, e3, e4⟩ := hf1 i hi
  obtain ⟨f1, f2, f3, f4⟩ := hf2 i (Nat.lt_of_lt_of_le hi hl1)
  exact ⟨f1.trans e1, f2.trans e2, f3.trans e3, fun p hp => f4 p (e4 p hp)⟩

/-- A structurally sound node: childless, or two children created earlier
whose hashes the stored hash combines. -/
def NodeOK (hs : HashStrategy) (A : List Node) (i : Nat) : Prop :=
  ((nodeAt A i).left = none ∧ (nodeAt A i).right = none) ∨
  ∃ l r, (nodeAt A i).left = some l ∧ (nodeAt A i).right = some r ∧
    l < i ∧ r < i ∧
    (nodeAt A i).h = hs.HashInternal (nodeAt A l).h (nodeAt A r).h

/-- Every node of the arena is structurally sound. -/
def ArenaOK (hs : HashStrategy) (A : List Node) : Prop := ∀ i, NodeOK hs A i

theorem nodeOK_default {hs : HashStrategy} {A : List Node} {i : Nat} (h : A.length ≤ i) :
    NodeOK hs A i :=
  Or.inl ⟨by rw [nodeAt_of_length_le h]; rfl, by rw [nodeAt_of_length_le h]; rfl⟩

theorem nodeOK_of_extends {hs : HashStrategy} {A B : List Node} {i : Nat}
    (hext : Extends A B) (hi : i < A.length) (hA : NodeOK hs A i) : NodeOK hs B i := by
  obtain ⟨hlen, hf⟩ := hext
  obtain ⟨e1, e2, e3, _⟩ := hf i hi
  rcases hA with ⟨h1, h2⟩ | ⟨l, r, h1, h2, h3, h4, h5⟩
  · exact Or.inl ⟨e2.trans h1, e3.trans h2⟩
  · refine Or.inr ⟨l, r, e2.trans h1, e3.trans h2, h3, h4, ?_⟩
    have el := (hf l (by omega)).1
    have er := (hf r (by omega)).1
    rw [e1, el, er, h5]

theorem arenaOK_extend {hs : HashStrategy} {A B : List Node}
    (hext : Extends A B) (hA : ArenaOK hs A)
    (hnew : ∀ i, A.length ≤ i → NodeOK hs B i) : ArenaOK hs B := by
  intro i
  by_cases hi : i < A.length
  · exact nodeOK_of_extends hext hi (hA i)
  · exact hnew i (by omega)

/-! Node.verify succeeds on structurally sound arenas -/

theorem verifyNode_true {hs : HashStrategy} {A : List Node} (hA : ArenaOK hs A) :
    ∀ fuel i, i < fuel → verifyNode hs A fuel i = true := by
  intro fuel
  induction fuel with
  | zero => intro i hi; omega
  | succ fuel ih =>
    intro i hi
    rcases hA i with ⟨h1, h2⟩ | ⟨l, r, h1, h2, h3, h4, h5⟩
    · simp [verifyNode, h1, h2]
    · have hl := ih l (by omega)
      have hr := ih r (by omega)
      simp [verifyNode, h1, h2, h5, hl, hr]

/-! The leaf scan keeps the last match -/

theorem findLeaf_aux_none {A : List Node} {hash : Bytes} :
    ∀ (ls : List Nat) (acc : Option Nat),
    (∀ l ∈ ls, (nodeAt A l).h ≠ hash) →
    ls.foldl (fun acc l => if (nodeAt A l).h = hash then some l else acc) acc = acc
  | [], _, _ => rfl
  | x :: xs, acc, hno => by
    have hx : (nodeAt A x).h ≠ hash := hno x (by simp)
    simp only [List.foldl_cons, if_neg hx]
    exact findLeaf_aux_none xs acc (fun l hl => hno l (by simp [hl]))

theorem findLeaf_aux_match {A : List Node} {hash : Bytes} :
    ∀ (ls : List Nat) (acc : Option Nat),
    (∃ l ∈ ls, (nodeAt A l).h = hash) →
    ∃ j, j ∈ ls ∧ (nodeAt A j).h = hash ∧
      ls.foldl (fun acc l => if (nodeAt A l).h = hash then some l else acc) acc = some j
  | [], _, hex => by simp at hex
  | x :: xs, acc, hex => by
    by_cases hxs : ∃ l ∈ xs, (nodeAt A l).h = hash
    · obtain ⟨j, hj1, hj2, hj3⟩ :=
        findLeaf_aux_match xs (if (nodeAt A x).h = hash then some x else acc) hxs
      exact ⟨j, by simp [hj1], hj2, by simpa using hj3⟩
    · have hx : (nodeAt A x).h = hash := by
        rcases hex with ⟨l, hl, hh⟩
        rcases List.mem_cons.mp hl with rfl | hmem
        · exact hh
        · exact absurd ⟨l, hmem, hh⟩ hxs
      refine ⟨x, by simp, hx, ?_⟩
      simp only [List.foldl_cons, if_pos hx]
      exact findLeaf_aux_none xs (some x) (fun l hl hh => hxs ⟨l, hl, hh⟩)

theorem findLeaf_eq_none {A : List Node} {hash : Bytes} {leaves : List Nat}
    (h : ∀ l ∈ leaves, (nodeAt A l).h ≠ hash) : findLeaf A hash leaves = none :=
  findLeaf_aux_none leaves none h

theorem findLeaf_eq_some {A : List Node} {hash : Bytes} {leaves : List Nat}
    (h : ∃ l ∈ leaves, (nodeAt A l).h = hash) :
    ∃ j, j ∈ leaves ∧ (nodeAt A j).h = hash ∧ findLeaf A hash leaves = some j :=
  findLeaf_aux_match leaves none h

theorem findLeaf_isSome_mem {A : List Node} {hash : Bytes} {leaves : List Nat} {j : Nat}
    (h : findLeaf A hash leaves = some j) : j ∈ leaves ∧ (nodeAt A j).h = hash := by
  by_cases hex : ∃ l ∈ leaves, (nodeAt A l).h = hash
  · obtain ⟨j2, h1, h2, h3⟩ := findLeaf_eq_some hex
    rw [h] at h3
    obtain rfl : j = j2 := by injection h3
    exact ⟨h1, h2⟩
  · rw [findLeaf_eq_none (fun l hl hh => hex ⟨l, hl, hh⟩)] at h
    cases h

theorem findLeaf_range_last {A : List Node} {hash : Bytes} :
    ∀ (n j : Nat), findLeaf A hash (List.range n) = some j →
    ∀ k, k < n → (nodeAt A k).h = hash → k ≤ j := by
  intro n
  induction n with
  | zero => intro j hj; simp [findLeaf] at hj
  | succ n ih =>
    intro j hj k hk hkh
    unfold findLeaf at hj
    rw [List.range_succ, List.foldl_append] at hj
    simp only [List.foldl_cons, List.foldl_nil] at hj
    by_cases hn : (nodeAt A n).h = hash
    · rw [if_pos hn] at hj
      obtain rfl : n = j := by injection hj
      omega
    · rw [if_neg hn] at hj
      rcases Nat.lt_succ_iff_lt_or_eq.mp hk with hk2 | rfl
      · exact ih j hj k hk2 hkh
      · exact absurd hkh hn

/-! One pairing round: everything the inner loop of buildMerkleTree
guarantees.  Reading the conjuncts in order: the arena only grows (hash,
children, set parents preserved); it stays structurally sound; the next
level has ceil(n/2) members, all in range, parentless, distinct, and each
either freshly created or promoted; untouched nodes are unchanged; and every
current-level node is either promoted into the next level or acquires a
parent in the next level whose two children (one of which it is) are hashed
into the stored hash of the parent. -/

theorem pairLevel_spec (hs : HashStrategy) :
    ∀ (level : List Nat) (A : List Node),
    (∀ i ∈ level, i < A.length) →
    (∀ i ∈ level, (nodeAt A i).parent = none) →
    level.Nodup →
    ArenaOK hs A →
    Extends A (pairLevel hs A level).1 ∧
    ArenaOK hs (pairLevel hs A level).1 ∧
    (pairLevel hs A level).2.length = (level.length + 1) / 2 ∧
    (∀ j ∈ (pairLevel hs A level).2, j < (pairLevel hs A level).1.length) ∧
    (∀ j ∈ (pairLevel hs A level).2, (nodeAt (pairLevel hs A level).1 j).parent = none) ∧
    (pairLevel hs A level).2.Nodup ∧
    (∀ j ∈ (pairLevel hs A level).2, A.length ≤ j ∨ j ∈ level) ∧
    (∀ k, k < A.length → k ∉ level → nodeAt (pairLevel hs A level).1 k = nodeAt A k) ∧
    (∀ i ∈ level,
      i ∈ (pairLevel hs A level).2 ∨
      ∃ p a b, p ∈ (pairLevel hs A level).2 ∧ i < p ∧
        a < (pairLevel hs A level).1.length ∧ b < (pairLevel hs A level).1.length ∧ a ≠ b ∧
        (i = a ∨ i = b) ∧
        (nodeAt (pairLevel hs A level).1 i).parent = some p ∧
        (nodeAt (pairLevel hs A level).1 p).left = some a ∧
        (nodeAt (pairLevel hs A level).1 p).right = some b ∧
        (nodeAt (pairLevel hs A level).1 p).h =
          hs.HashInternal (nodeAt (pairLevel hs A level).1 a).h
            (nodeAt (pairLevel hs A level).1 b).h)
  | [], A => fun _ _ _ h4 => by
    have e : pairLevel hs A [] = (A, []) := rfl
    rw [e]
    refine ⟨extends_refl A, h4, by simp, ?_, ?_, ?_, ?_, ?_, ?_⟩ <;> simp
  | [x], A => fun h1 h2 _ h4 => by
    have e : pairLevel hs A [x] = (A, [x]) := rfl
    rw [e]
    refine ⟨extends_refl A, h4, by simp, ?_, ?_, ?_, ?_, ?_, ?_⟩
    · intro j hj
      have hx : j = x := by simpa using hj
      rw [hx]
      exact h1 x (by simp)
    · intro j hj
      have hx : j = x := by simpa using hj
      rw [hx]
      exact h2 x (by simp)
    · simp
    · intro j hj
      exact Or.inr hj
    · intro k _ _
      rfl
    · intro i hi
      exact Or.inl hi
  | a :: b :: rest, A => fun h1 h2 h3 h4 => by
    have ha : a < A.length := h1 a (by simp)
    have hb : b < A.length := h1 b (by simp)
    obtain ⟨hanotin, hbrest⟩ := List.nodup_cons.mp h3
    obtain ⟨hbnotin, hrestnodup⟩ := List.nodup_cons.mp hbrest
    have hab : a ≠ b := fun he => hanotin (he ▸ List.mem_cons_self b rest)
    have hanotrest : a ∉ rest := fun hmem => hanotin (List.mem_cons_of_mem b hmem)
    set P : Node :=
      ⟨hs.HashInternal (nodeAt A a).h (nodeAt A b).h, some a, some b, none⟩ with hP
    set A2 := setParent (setParent (A ++ [P]) a A.length) b A.length with hA2
    have elen : A2.length = A.length + 1 := by
      rw [hA2, length_setParent, length_setParent]
      simp
    have hA2at : ∀ k, k < A.length → k ≠ a → k ≠ b → nodeAt A2 k = nodeAt A k := by
      intro k hk hka hkb
      rw [hA2, nodeAt_setParent_ne hkb, nodeAt_setParent_ne hka, nodeAt_append hk]
    have hA2a : nodeAt A2 a = { nodeAt A a with parent := some A.length } := by
      rw [hA2, nodeAt_setParent_ne hab,
        nodeAt_setParent_self (by simp; omega), nodeAt_append ha]
    have hA2b : nodeAt A2 b = { nodeAt A b with parent := some A.length } := by
      rw [hA2, nodeAt_setParent_self (by rw [length_setParent]; simp; omega),
        nodeAt_setParent_ne (Ne.symm hab), nodeAt_append hb]
    have hA2p : nodeAt A2 A.length = P := by
      rw [hA2, nodeAt_setParent_ne (by omega : A.length ≠ b),
        nodeAt_setParent_ne (by omega : A.length ≠ a)]
      exact nodeAt_append_self
    have hext2 : Extends A A2 := by
      refine ⟨by omega, fun i hi => ?_⟩
      by_cases hia : i = a
      · rw [hia, hA2a]
        refine ⟨rfl, rfl, rfl, fun p hp => ?_⟩
        rw [h2 a (by simp)] at hp
        exact Option.noConfusion hp
      · by_cases hib : i = b
        · rw [hib, hA2b]
          refine ⟨rfl, rfl, rfl, fun p hp => ?_⟩
          rw [h2 b (by simp)] at hp
          exact Option.noConfusion hp
        · rw [hA2at i hi hia hib]
          exact ⟨rfl, rfl, rfl, fun _ hp => hp⟩
    have hok2 : ArenaOK hs A2 := by
      refine arenaOK_extend hext2 h4 (fun i hi => ?_)
      by_cases hip : i = A.length
      · subst hip
        refine Or.inr ⟨a, b, ?_, ?_, by omega, by omega, ?_⟩
        · rw [hA2p]
        · rw [hA2p]
        · rw [hA2p, hA2a, hA2b]
      · exact nodeOK_default (by omega)
    have hpnr : A.length ∉ rest := fun hmem => absurd (h1 A.length (by simp [hmem])) (by omega)
    obtain ⟨IH1, IH2, IH3, IH4, IH5, IH6, IH7, IH8, IH9⟩ :=
      pairLevel_spec hs rest A2
        (fun i himem => by rw [elen]; exact Nat.lt_succ_of_lt (h1 i (by simp [himem])))
        (fun i himem => by
          rw [hA2at i (h1 i (by simp [himem]))
            (fun he => hanotrest (he ▸ himem)) (fun he => hbnotin (he ▸ himem))]
          exact h2 i (by simp [himem]))
        hrestnodup hok2
    have heq1 : (pairLevel hs A (a :: b :: rest)).1 = (pairLevel hs A2 rest).1 := rfl
    have heq2 : (pairLevel hs A (a :: b :: rest)).2 =
        A.length :: (pairLevel hs A2 rest).2 := rfl
    have hR1len : A2.length ≤ (pairLevel hs A2 rest).1.length := IH1.1
    rw [heq1, heq2]
    refine ⟨extends_trans hext2 IH1, IH2, ?_, ?_, ?_, ?_, ?_, ?_, ?_⟩
    · simp only [List.length_cons, IH3]
      omega
    · intro j hj
      rcases List.mem_cons.mp hj with rfl | hj2
      · omega
      · exact IH4 j hj2
    · intro j hj
      rcases List.mem_cons.mp hj with rfl | hj2
      · rw [IH8 A.length (by omega) hpnr, hA2p]
      · exact IH5 j hj2
    · refine List.nodup_cons.mpr ⟨fun hmem => ?_, IH6⟩
      rcases IH7 A.length hmem with hge | hin
      · omega
      · exact hpnr hin
    · intro j hj
      rcases List.mem_cons.mp hj with rfl | hj2
      · exact Or.inl (by omega)
      · rcases IH7 j hj2 with hge | hin
        · exact Or.inl (by omega)
        · exact Or.inr (by simp [hin])
    · intro k hk hknot
      simp only [List.mem_cons, not_or] at hknot
      obtain ⟨hka, hkb, hkrest⟩ := hknot
      rw [IH8 k (by omega) hkrest, hA2at k hk hka hkb]
    · intro i hi
      rcases List.mem_cons.mp hi with hia | hi2
      · rw [hia]
        refine Or.inr ⟨A.length, a, b, List.mem_cons_self _ _, by omega,
          by omega, by omega, hab, Or.inl rfl, ?_, ?_, ?_, ?_⟩
        · rw [IH8 a (by omega) hanotrest, hA2a]
        · rw [IH8 A.length (by omega) hpnr, hA2p]
        · rw [IH8 A.length (by omega) hpnr, hA2p]
        · rw [IH8 A.length (by omega) hpnr, hA2p,
            IH8 a (by omega) hanotrest, hA2a, IH8 b (by omega) hbnotin, hA2b]
      rcases List.mem_cons.mp hi2 with hib | hi3
      · rw [hib]
        refine Or.inr ⟨A.length, a, b, List.mem_cons_self _ _, by omega,
          by omega, by omega, hab, Or.inr rfl, ?_, ?_, ?_, ?_⟩
        · rw [IH8 b (by omega) hbnotin, hA2b]
        · rw [IH8 A.length (by omega) hpnr, hA2p]
        · rw [IH8 A.length (by omega) hpnr, hA2p]
        · rw [IH8 A.length (by omega) hpnr, hA2p,
            IH8 a (by omega) hanotrest, hA2a, IH8 b (by omega) hbnotin, hA2b]
      · rcases IH9 i hi3 with hmem | ⟨p, x, y, hp1, hp2, hp3, hp4, hp5, hp6, hp7, hp8, hp9, hp10⟩
        · exact Or.inl (List.mem_cons_of_mem _ hmem)
        · exact Or.inr ⟨p, x, y, List.mem_cons_of_mem _ hp1, hp2, hp3, hp4, hp5, hp6,
            hp7, hp8, hp9, hp10⟩

theorem foldPairs_cons (hs : HashStrategy) (acc sib : Bytes) (isl : Bool)
    (rest : List (Bytes × Bool)) :
    foldPairs hs acc ((sib, isl) :: rest) =
      foldPairs hs (if isl then hs.HashInternal sib acc else hs.HashInternal acc sib) rest := rfl

/-! The level-reduction loop.  Beyond the construction facts carried up
from pairLevel, the key invariant: from every node of the current level,
climbing the parent chain of the final arena (with any sufficient fuel) and
folding the collected sibling hashes reproduces the hash of the final root. -/

theorem reduceAux_spec (hs : HashStrategy) :
    ∀ (fuel : Nat) (level : List Nat) (A : List Node) (cnt : Nat),
    level ≠ [] →
    level.length ≤ fuel →
    (∀ i ∈ level, i < A.length) →
    (∀ i ∈ level, (nodeAt A i).parent = none) →
    level.Nodup →
    ArenaOK hs A →
    Extends A (reduceAux hs fuel A level cnt).1 ∧
    ArenaOK hs (reduceAux hs fuel A level cnt).1 ∧
    (reduceAux hs fuel A level cnt).2.1 < (reduceAux hs fuel A level cnt).1.length ∧
    (reduceAux hs fuel A level cnt).2.2 = cnt + (level.length - 1) ∧
    (∀ i ∈ level, ∀ g, (reduceAux hs fuel A level cnt).1.length - i ≤ g →
      foldPairs hs (nodeAt (reduceAux hs fuel A level cnt).1 i).h
          ((climb (reduceAux hs fuel A level cnt).1 g i).1.zip
            (climb (reduceAux hs fuel A level cnt).1 g i).2) =
        (nodeAt (reduceAux hs fuel A level cnt).1 (reduceAux hs fuel A level cnt).2.1).h) := by
  intro fuel
  induction fuel with
  | zero =>
    intro level A cnt hne hlen
    exact absurd (List.length_eq_zero.mp (by omega)) hne
  | succ fuel ih =>
    intro level A cnt hne hlen h1 h2 h3 h4
    by_cases hle : level.length ≤ 1
    · rcases level with _ | ⟨r, level2⟩
      · exact absurd rfl hne
      rcases level2 with _ | ⟨s, level3⟩
      · have e : reduceAux hs (fuel + 1) A [r] cnt = (A, r, cnt) := by
          simp [reduceAux]
        rw [e]
        have hrA : r < A.length := h1 r (by simp)
        refine ⟨extends_refl A, h4, hrA, by simp, ?_⟩
        intro i hi g hg
        have hir : i = r := by simpa using hi
        rw [hir] at hg ⊢
        have hg2 : A.length - r ≤ g := hg
        obtain ⟨g2, rfl⟩ : ∃ g2, g = g2 + 1 := ⟨g - 1, by omega⟩
        have hpar : (nodeAt A r).parent = none := h2 r (by simp)
        simp [climb, hpar, foldPairs]
      · exact absurd hle (by simp)
    · obtain ⟨P1, P2, P3, P4, P5, P6, P7, P8, P9⟩ := pairLevel_spec hs level A h1 h2 h3 h4
      have hne2 : (pairLevel hs A level).2 ≠ [] := by
        intro hnil
        rw [hnil] at P3
        simp at P3
        omega
      have hlen2 : (pairLevel hs A level).2.length ≤ fuel := by
        rw [P3]
        omega
      obtain ⟨I1, I2, I3, I4, I5⟩ :=
        ih (pairLevel hs A level).2 (pairLevel hs A level).1 (cnt + level.length / 2)
          hne2 hlen2 P4 P5 P6 P2
      have e : reduceAux hs (fuel + 1) A level cnt =
          reduceAux hs fuel (pairLevel hs A level).1 (pairLevel hs A level).2
            (cnt + level.length / 2) := by
        simp only [reduceAux]
        rw [if_neg (by omega)]
      rw [e]
      refine ⟨extends_trans P1 I1, I2, I3, ?_, ?_⟩
      · rw [I4, P3]
        omega
      · intro i hi g hg
        rcases P9 i hi with hmem | ⟨p, a, b, hp1, hp2, hp3, hp4, hp5, hp6, hp7, hp8, hp9, hp10⟩
        · exact I5 i hmem g hg
        · obtain ⟨hL, hF⟩ := I1
          set R := reduceAux hs fuel (pairLevel hs A level).1 (pairLevel hs A level).2
            (cnt + level.length / 2) with hR
          have hiR1 : i < (pairLevel hs A level).1.length := by
            have hiA := h1 i hi
            have := P1.1
            omega
          have hpR1 : p < (pairLevel hs A level).1.length := P4 p hp1
          have hiparR : (nodeAt R.1 i).parent = some p := (hF i hiR1).2.2.2 p hp7
          have hpleft : (nodeAt R.1 p).left = some a := by
            rw [(hF p hpR1).2.1]
            exact hp8
          have hpright : (nodeAt R.1 p).right = some b := by
            rw [(hF p hpR1).2.2.1]
            exact hp9
          have hphash : (nodeAt R.1 p).h =
              hs.HashInternal (nodeAt R.1 a).h (nodeAt R.1 b).h := by
            rw [(hF p hpR1).1, (hF a hp3).1, (hF b hp4).1]
            exact hp10
          obtain ⟨g2, rfl⟩ : ∃ g2, g = g2 + 1 := ⟨g - 1, by omega⟩
          rcases hp6 with hia | hib
          · have hisl : isLeft R.1 i = true := by
              simp only [isLeft, hiparR]
              rw [hpleft, hia]
              simp
            have hclimb : climb R.1 (g2 + 1) i =
                ((nodeAt R.1 b).h :: (climb R.1 g2 p).1, false :: (climb R.1 g2 p).2) := by
              simp only [climb, hiparR, hisl, if_true]
              simp [hpright]
            rw [hclimb, List.zip_cons_cons, foldPairs_cons, if_neg Bool.false_ne_true,
              hia, ← hphash]
            exact I5 p hp1 g2 (by omega)
          · have hisl : isLeft R.1 i = false := by
              simp only [isLeft, hiparR]
              rw [hpleft]
              simp [hib, hp5]
            have hclimb : climb R.1 (g2 + 1) i =
                ((nodeAt R.1 a).h :: (climb R.1 g2 p).1, true :: (climb R.1 g2 p).2) := by
              simp only [climb, hiparR, hisl]
              simp [hpleft]
            rw [hclimb, List.zip_cons_cons, foldPairs_cons, if_pos rfl,
              hib, ← hphash]
            exact I5 p hp1 g2 (by omega)

theorem climb_lengths (A : List Node) :
    ∀ fuel i, (climb A fuel i).1.length = (climb A fuel i).2.length := by
  intro fuel
  induction fuel with
  | zero => intro i; rfl
  | succ fuel ih =>
    intro i
    cases hp : (nodeAt A i).parent with
    | none => simp [climb, hp]
    | some p => simp [climb, hp, ih p]

/-! The built tree, assembled -/

/-- Everything buildMerkleTree guarantees on nonempty input: the returned
tree records the leaves in input order as the first arena indices, the
strategy, a structurally sound arena, the 2n-1 node count, and a root from
which the climb from every leaf folds back to the root hash. -/
theorem built_tree_spec (data : List Bytes) (hs : HashStrategy) (hne : data ≠ []) :
    ∃ m : MerkleTree,
      buildMerkleTree data hs = some m ∧
      m.leaves = List.range data.length ∧
      m.hashStrategy = some hs ∧
      data.length ≤ m.arena.length ∧
      (∀ i, i < data.length → (nodeAt m.arena i).h = hs.HashLeaf (data.getD i [])) ∧
      ArenaOK hs m.arena ∧
      m.n = 2 * (data.length : Int) - 1 ∧
      ∃ r, m.root = some r ∧ r < m.arena.length ∧
        MerkleTree.Root (some m) = some (nodeAt m.arena r).h ∧
        ∀ i, i < data.length → ∀ g, m.arena.length - i ≤ g →
          foldPairs hs (nodeAt m.arena i).h
              ((climb m.arena g i).1.zip (climb m.arena g i).2) =
            (nodeAt m.arena r).h := by
  have hnlen : 0 < data.length := List.length_pos.mpr hne
  set A0 : List Node := data.map (fun x => ⟨hs.HashLeaf x, none, none, none⟩) with hA0
  have hA0len : A0.length = data.length := by simp [hA0]
  have hA0at : ∀ i, i < data.length →
      nodeAt A0 i = ⟨hs.HashLeaf (data.getD i []), none, none, none⟩ := by
    intro i hi
    rw [hA0, nodeAt, List.getD_eq_getElem _ _ (by simpa using hi), List.getElem_map,
      List.getD_eq_getElem _ _ hi]
  have hA0ok : ArenaOK hs A0 := by
    intro i
    by_cases hi : i < data.length
    · exact Or.inl (by rw [hA0at i hi]; exact ⟨rfl, rfl⟩)
    · exact nodeOK_default (by omega)
  obtain ⟨R1, R2, R3, R4, R5⟩ :=
    reduceAux_spec hs data.length (List.range data.length) A0 data.length
      (by simp only [ne_eq, List.range_eq_nil]; omega)
      (by simp)
      (fun i hi => by rw [hA0len]; exact List.mem_range.mp hi)
      (fun i hi => by rw [hA0at i (List.mem_range.mp hi)])
      (List.nodup_range _)
      hA0ok
  refine ⟨⟨(reduceAux hs data.length A0 (List.range data.length) data.length).1,
      some (reduceAux hs data.length A0 (List.range data.length) data.length).2.1,
      ((reduceAux hs data.length A0 (List.range data.length) data.length).2.2 : Int),
      List.range data.length, some hs⟩, ?_, rfl, rfl, ?_, ?_, R2, ?_, ?_⟩
  · rw [buildMerkleTree, if_neg (by simpa using hne)]
  · exact Nat.le_trans (by omega) R1.1
  · intro i hi
    rw [(R1.2 i (by omega)).1, hA0at i hi]
  · rw [R4]
    simp only [List.length_range]
    omega
  · refine ⟨(reduceAux hs data.length A0 (List.range data.length) data.length).2.1,
      rfl, R3, by simp [MerkleTree.Root], ?_⟩
    intro i hi g hg
    exact R5 i (List.mem_range.mpr hi) g hg

/-! Round-trip: a proof extracted from a built tree verifies -/

theorem roundtrip_general (hs : HashStrategy) (data : List Bytes) (x : Bytes)
    (hne : data ≠ []) (hx : x ∈ data) :
    ∃ p, MerkleTree.Proof (buildMerkleTree data hs) x = some (Except.ok p) ∧
      VerifyProof x (some p) = none := by
  obtain ⟨m, hm, hleaves, hstrat, hlen, hleafh, hok, hn, r, hroot, hrlt, hRoot, hfold⟩ :=
    built_tree_spec data hs hne
  obtain ⟨i0, hi0, hdata⟩ : ∃ i0, i0 < data.length ∧ data.getD i0 [] = x := by
    obtain ⟨i0, hi0, hx2⟩ := List.getElem_of_mem hx
    exact ⟨i0, hi0, by rw [List.getD_eq_getElem _ _ hi0, hx2]⟩
  have hmatch : ∃ l ∈ m.leaves, (nodeAt m.arena l).h = hs.HashLeaf x := by
    refine ⟨i0, ?_, ?_⟩
    · rw [hleaves]
      exact List.mem_range.mpr hi0
    · rw [hleafh i0 hi0, hdata]
  obtain ⟨j, hjmem, hjh, hfind⟩ := findLeaf_eq_some hmatch
  have hjlt : j < data.length := by
    rw [hleaves] at hjmem
    exact List.mem_range.mp hjmem
  have hverify : MerkleTree.Verify (some m) = true := by
    simp only [MerkleTree.Verify, hroot, hstrat]
    exact verifyNode_true hok _ r hrlt
  have hVE : m.VerifyExists x = some (some j, none) := by
    simp only [MerkleTree.VerifyExists, hstrat, hfind, hverify]
    simp
  have hProof : MerkleTree.Proof (some m) x = some (Except.ok
      ⟨(MerkleTree.Root (some m)).getD [], (climb m.arena m.arena.length j).1,
       (climb m.arena m.arena.length j).2, m.hashStrategy⟩) := by
    simp only [MerkleTree.Proof, hVE]
  have hhash : foldPairs hs (hs.HashLeaf x)
      ((climb m.arena m.arena.length j).1.zip (climb m.arena m.arena.length j).2) =
      (nodeAt m.arena r).h := by
    rw [← hjh]
    exact hfold j hjlt m.arena.length (Nat.sub_le _ _)
  rw [hm]
  refine ⟨_, hProof, ?_⟩
  simp only [VerifyProof, hstrat]
  rw [if_neg (by simp [climb_lengths])]
  rw [hRoot]
  simp [hhash]

/-! Claim theorems -/

/-- C1: Round-trip — for every non-empty sequence of items and every item x
in it, building with BuildMerkleTree (default strategy) and calling Proof(x)
yields a proof with no error, and VerifyProof(x, proof) succeeds (nil
error). -/
theorem claim1_roundtrip (data : List Bytes) (x : Bytes) (hne : data ≠ []) (hx : x ∈ data) :
    ∃ p, MerkleTree.Proof (BuildMerkleTree data) x = some (Except.ok p) ∧
      VerifyProof x (some p) = none :=
  roundtrip_general defaultHashStrategy data x hne hx

theorem claim1_roundtrip_witness :
    ∃ p, MerkleTree.Proof (BuildMerkleTree [[97], [98]]) [97] = some (Except.ok p) ∧
      VerifyProof [97] (some p) = none :=
  claim1_roundtrip [[97], [98]] [97] (by decide) (by decide)

/-- C2 counterexample: at n = 3 the node count is 5 = 2n - 1 even though 3
is not a power of two and the build promotes a node (level sizes 3, 2, 1) —
so "node count equals 2n - 1 exactly when n is a power of two" and
"strictly less than 2n - 1 whenever promotion occurs" are both false. -/
theorem claim2_node_count_cex :
    MerkleTree.Len (BuildMerkleTree [[97], [98], [99]]) = 2 * 3 - 1 ∧
    ∀ k : Nat, 2 ^ k ≠ 3 := by
  constructor
  · decide
  · intro k
    match k with
    | 0 => decide
    | 1 => decide
    | k + 2 =>
      have h4 : 4 ≤ 2 ^ (k + 2) := by
        calc 4 = 2 ^ 2 := by norm_num
        _ ≤ 2 ^ (k + 2) := Nat.pow_le_pow_right (by norm_num) (by omega)
      omega

/-- C2 amended: for every non-empty sequence of n items (under any
strategy), Len() equals 2n - 1 — promotion never changes the count, because
the built tree is a full binary tree with n leaves; in particular n = 3
gives 5. -/
theorem claim2_node_count (data : List Bytes) (hs : HashStrategy) (hne : data ≠ []) :
    MerkleTree.Len (buildMerkleTree data hs) = 2 * (data.length : Int) - 1 := by
  obtain ⟨m, hm, -, -, -, -, -, hn, -⟩ := built_tree_spec data hs hne
  rw [hm]
  simp only [MerkleTree.Len]
  exact hn

theorem claim2_node_count_witness :
    MerkleTree.Len (buildMerkleTree [[97], [98], [99]] defaultHashStrategy) =
      2 * (([[97], [98], [99]] : List Bytes).length : Int) - 1 :=
  claim2_node_count [[97], [98], [99]] defaultHashStrategy (by decide)

/-- C5: The default strategy prepends the fixed tag byte 0x00 to the item
bytes before SHA-256 for leaves, and the distinct tag byte 0x01 followed by
the left hash bytes then the right hash bytes, in that order, for internal
nodes. -/
theorem claim5_domain_separated_hashing (b l r : Bytes) :
    defaultHashStrategy.HashLeaf b = HashSHA256 (0x00 :: b) ∧
    defaultHashStrategy.HashInternal l r = HashSHA256 (0x01 :: (l ++ r)) :=
  ⟨rfl, rfl⟩

/-- C8: VerifyProof reports "proof lengths mismatch" whenever the sibling
and direction sequences differ in length; with equal lengths it folds the
leaf hash through the pairs (left sibling on the left, otherwise on the
right) and succeeds iff the result byte-equals the recorded root, reporting
"root does not match" iff it differs. -/
theorem claim8_verifyProof_errors (x : Bytes) (pr : Proof) (hs : HashStrategy)
    (hhs : pr.hashStrategy = some hs) :
    (pr.siblings.length ≠ pr.left.length →
      VerifyProof x (some pr) = some "proof lengths mismatch") ∧
    (pr.siblings.length = pr.left.length →
      ((VerifyProof x (some pr) = none ↔
        foldPairs hs (hs.HashLeaf x) (pr.siblings.zip pr.left) = pr.root) ∧
       (VerifyProof x (some pr) = some "root does not match" ↔
        foldPairs hs (hs.HashLeaf x) (pr.siblings.zip pr.left) ≠ pr.root))) := by
  constructor
  · intro hlen
    simp only [VerifyProof, hhs]
    rw [if_pos hlen]
  · intro hlen
    simp only [VerifyProof, hhs]
    rw [if_neg (by omega)]
    by_cases hfold : foldPairs hs (hs.HashLeaf x) (pr.siblings.zip pr.left) = pr.root
    · rw [if_pos hfold]
      exact ⟨⟨fun _ => hfold, fun _ => rfl⟩,
        ⟨fun h => Option.noConfusion h, fun hne2 => absurd hfold hne2⟩⟩
    · rw [if_neg hfold]
      refine ⟨⟨fun h => Option.noConfusion h, fun h => absurd h hfold⟩,
        ⟨fun _ => hfold, fun _ => rfl⟩⟩

/-- A concrete empty proof under the default strategy. -/
def emptyProof : Proof := ⟨[], [], [], some defaultHashStrategy⟩

theorem claim8_verifyProof_errors_witness :
    (emptyProof.siblings.length ≠ emptyProof.left.length →
      VerifyProof [97] (some emptyProof) = some "proof lengths mismatch") ∧
    (emptyProof.siblings.length = emptyProof.left.length →
      ((VerifyProof [97] (some emptyProof) = none ↔
        foldPairs defaultHashStrategy (defaultHashStrategy.HashLeaf [97])
          (emptyProof.siblings.zip emptyProof.left) = emptyProof.root) ∧
       (VerifyProof [97] (some emptyProof) = some "root does not match" ↔
        foldPairs defaultHashStrategy (defaultHashStrategy.HashLeaf [97])
          (emptyProof.siblings.zip emptyProof.left) ≠ emptyProof.root))) :=
  claim8_verifyProof_errors [97] emptyProof defaultHashStrategy rfl

/-- C9: Building from zero items yields an absent tree (nil, not an error);
Root of the absent tree is absent, Len is the sentinel -1, distinct from 0;
both are total functions, so neither crashes. -/
theorem claim9_empty_input :
    BuildMerkleTree [] = none ∧
    MerkleTree.Root none = none ∧
    MerkleTree.Len none = -1 ∧
    MerkleTree.Len none ≠ 0 := by
  refine ⟨rfl, rfl, rfl, by decide⟩

/-- C7: VerifyExists returns the "not in tree" error iff the stored hash of no
retained leaf byte-equals HashLeaf(x) under the strategy of the tree; when some
leaf matches but whole-tree Verify fails it returns "unable to verify tree"
together with the matched leaf; otherwise it returns the matched leaf node
and no error. -/
theorem claim7_verifyExists_errors (m : MerkleTree) (hs : HashStrategy)
    (hhs : m.hashStrategy = some hs) (x : Bytes) :
    ∃ res err, m.VerifyExists x = some (res, err) ∧
      ((err = some "not in tree") ↔ ∀ l ∈ m.leaves, (nodeAt m.arena l).h ≠ hs.HashLeaf x) ∧
      ((∃ l ∈ m.leaves, (nodeAt m.arena l).h = hs.HashLeaf x) →
        MerkleTree.Verify (some m) = false →
        err = some "unable to verify tree" ∧
          ∃ j, res = some j ∧ j ∈ m.leaves ∧ (nodeAt m.arena j).h = hs.HashLeaf x) ∧
      ((∃ l ∈ m.leaves, (nodeAt m.arena l).h = hs.HashLeaf x) →
        MerkleTree.Verify (some m) = true →
        err = none ∧
          ∃ j, res = some j ∧ j ∈ m.leaves ∧ (nodeAt m.arena j).h = hs.HashLeaf x) := by
  by_cases hex : ∃ l ∈ m.leaves, (nodeAt m.arena l).h = hs.HashLeaf x
  · obtain ⟨j, hjmem, hjh, hfind⟩ := findLeaf_eq_some hex
    by_cases hver : MerkleTree.Verify (some m) = true
    · refine ⟨some j, none, ?_, ?_, ?_, ?_⟩
      · simp only [MerkleTree.VerifyExists, hhs, hfind, hver]
        simp
      · exact ⟨fun h => Option.noConfusion h, fun hall => absurd hjh (hall j hjmem)⟩
      · intro _ hver2
        rw [hver] at hver2
        exact Bool.noConfusion hver2
      · exact fun _ _ => ⟨rfl, j, rfl, hjmem, hjh⟩
    · have hverf : MerkleTree.Verify (some m) = false := by
        cases hv : MerkleTree.Verify (some m)
        · rfl
        · exact absurd hv hver
      refine ⟨some j, some "unable to verify tree", ?_, ?_, ?_, ?_⟩
      · simp only [MerkleTree.VerifyExists, hhs, hfind, hverf]
        simp
      · constructor
        · intro h
          have h2 : "unable to verify tree" = "not in tree" := by injection h
          exact absurd h2 (by decide)
        · intro hall
          exact absurd hjh (hall j hjmem)
      · exact fun _ _ => ⟨rfl, j, rfl, hjmem, hjh⟩
      · exact fun _ hver2 => absurd hver2 hver
  · have hfind : findLeaf m.arena (hs.HashLeaf x) m.leaves = none :=
      findLeaf_eq_none (fun l hl hh => hex ⟨l, hl, hh⟩)
    refine ⟨none, some "not in tree", ?_, ?_, ?_, ?_⟩
    · simp only [MerkleTree.VerifyExists, hhs, hfind]
    · exact ⟨fun _ l hl hh => hex ⟨l, hl, hh⟩, fun _ => rfl⟩
    · exact fun hex2 => absurd hex2 hex
    · exact fun hex2 => absurd hex2 hex

/-- A hand-made one-leaf tree value (what BuildMerkleTree [[97]] builds). -/
def egTreeOne : MerkleTree :=
  ⟨[⟨defaultHashStrategy.HashLeaf [97], none, none, none⟩], some 0, 1, [0],
   some defaultHashStrategy⟩

theorem claim7_verifyExists_errors_witness :
    ∃ res err, egTreeOne.VerifyExists [98] = some (res, err) ∧
      ((err = some "not in tree") ↔
        ∀ l ∈ egTreeOne.leaves,
          (nodeAt egTreeOne.arena l).h ≠ defaultHashStrategy.HashLeaf [98]) ∧
      ((∃ l ∈ egTreeOne.leaves,
          (nodeAt egTreeOne.arena l).h = defaultHashStrategy.HashLeaf [98]) →
        MerkleTree.Verify (some egTreeOne) = false →
        err = some "unable to verify tree" ∧
          ∃ j, res = some j ∧ j ∈ egTreeOne.leaves ∧
            (nodeAt egTreeOne.arena j).h = defaultHashStrategy.HashLeaf [98]) ∧
      ((∃ l ∈ egTreeOne.leaves,
          (nodeAt egTreeOne.arena l).h = defaultHashStrategy.HashLeaf [98]) →
        MerkleTree.Verify (some egTreeOne) = true →
        err = none ∧
          ∃ j, res = some j ∧ j ∈ egTreeOne.leaves ∧
            (nodeAt egTreeOne.arena j).h = defaultHashStrategy.HashLeaf [98]) :=
  claim7_verifyExists_errors egTreeOne defaultHashStrategy rfl [98]

/-- C10: On a built tree, when at least one retained leaf matches (in
particular when several leaves carry byte-equal hashes, as with duplicate
items), VerifyExists scans the whole leaf list and returns the rightmost
(highest-index) matching leaf node with no error, and Proof extracts its
sibling path by climbing from exactly that node. -/
theorem claim10_rightmost_match (data : List Bytes) (x : Bytes) (hne : data ≠ [])
    (m : MerkleTree) (hm : BuildMerkleTree data = some m)
    (hmatch : ∃ l ∈ m.leaves, (nodeAt m.arena l).h = defaultHashStrategy.HashLeaf x) :
    ∃ j, m.VerifyExists x = some (some j, none) ∧
      j ∈ m.leaves ∧ (nodeAt m.arena j).h = defaultHashStrategy.HashLeaf x ∧
      (∀ k ∈ m.leaves, (nodeAt m.arena k).h = defaultHashStrategy.HashLeaf x → k ≤ j) ∧
      MerkleTree.Proof (some m) x = some (Except.ok
        ⟨(MerkleTree.Root (some m)).getD [], (climb m.arena m.arena.length j).1,
         (climb m.arena m.arena.length j).2, m.hashStrategy⟩) := by
  obtain ⟨m2, hm2, hleaves, hstrat, hlen, hleafh, hok, hn, r, hroot, hrlt, hRoot, hfold⟩ :=
    built_tree_spec data defaultHashStrategy hne
  rw [BuildMerkleTree] at hm
  rw [hm] at hm2
  obtain rfl : m = m2 := by injection hm2
  obtain ⟨j, hjmem, hjh, hfind⟩ := findLeaf_eq_some hmatch
  have hverify : MerkleTree.Verify (some m) = true := by
    simp only [MerkleTree.Verify, hroot, hstrat]
    exact verifyNode_true hok _ r hrlt
  have hVE : m.VerifyExists x = some (some j, none) := by
    simp only [MerkleTree.VerifyExists, hstrat, hfind, hverify]
    simp
  refine ⟨j, hVE, hjmem, hjh, ?_, ?_⟩
  · intro k hk hkh
    rw [hleaves] at hfind hk
    exact findLeaf_range_last data.length j hfind k (List.mem_range.mp hk) hkh
  · simp only [MerkleTree.Proof, hVE]

/-- A hand-made two-duplicate-leaf tree value (what BuildMerkleTree
[[97], [97]] builds). -/
def egTreeDup : MerkleTree :=
  ⟨[⟨defaultHashStrategy.HashLeaf [97], none, none, some 2⟩,
    ⟨defaultHashStrategy.HashLeaf [97], none, none, some 2⟩,
    ⟨defaultHashStrategy.HashInternal (defaultHashStrategy.HashLeaf [97])
       (defaultHashStrategy.HashLeaf [97]), some 0, some 1, none⟩],
   some 2, 3, [0, 1], some defaultHashStrategy⟩

theorem claim10_rightmost_match_witness :
    ∃ j, egTreeDup.VerifyExists [97] = some (some j, none) ∧
      j ∈ egTreeDup.leaves ∧
      (nodeAt egTreeDup.arena j).h = defaultHashStrategy.HashLeaf [97] ∧
      (∀ k ∈ egTreeDup.leaves,
        (nodeAt egTreeDup.arena k).h = defaultHashStrategy.HashLeaf [97] → k ≤ j) ∧
      MerkleTree.Proof (some egTreeDup) [97] = some (Except.ok
        ⟨(MerkleTree.Root (some egTreeDup)).getD [],
         (climb egTreeDup.arena egTreeDup.arena.length j).1,
         (climb egTreeDup.arena egTreeDup.arena.length j).2, egTreeDup.hashStrategy⟩) :=
  claim10_rightmost_match [[97], [97]] [97] (by decide) egTreeDup rfl (by decide)

/-! Verify as a statement about the node graph -/

/-- Downward reachability through child pointers: the nodes of the graph
owned by a given node. -/
inductive Reaches (A : List Node) : Nat → Nat → Prop
  | refl (i : Nat) : Reaches A i i
  | left {i j l : Nat} : (nodeAt A i).left = some l → Reaches A l j → Reaches A i j
  | right {i j r : Nat} : (nodeAt A i).right = some r → Reaches A r j → Reaches A i j

/-- The per-node condition Verify checks: both children present with the
stored hash equal to HashInternal of their hashes, or no children; a node
with exactly one child satisfies neither disjunct. -/
def ValidNode (hs : HashStrategy) (A : List Node) (i : Nat) : Prop :=
  ((nodeAt A i).left = none ∧ (nodeAt A i).right = none) ∨
  ∃ l r, (nodeAt A i).left = some l ∧ (nodeAt A i).right = some r ∧
    (nodeAt A i).h = hs.HashInternal (nodeAt A l).h (nodeAt A r).h

/-- Child indices precede their parents.  True of every arena this library
builds; it is exactly what makes the recursive Node.verify terminate in Go,
and what lets arena-length fuel simulate the unbounded Go recursion. -/
def ChildrenDec (A : List Node) : Bool :=
  (List.range A.length).all (fun i =>
    (match (nodeAt A i).left with | none => true | some l => decide (l < i)) &&
    (match (nodeAt A i).right with | none => true | some r => decide (r < i)))

theorem childrenDec_left {A : List Node} (hd : ChildrenDec A = true) {i l : Nat}
    (hl : (nodeAt A i).left = some l) : l < i := by
  by_cases hi : i < A.length
  · have h2 := List.all_eq_true.mp hd i (List.mem_range.mpr hi)
    rw [hl] at h2
    simp only [Bool.and_eq_true, decide_eq_true_eq] at h2
    exact h2.1
  · rw [nodeAt_of_length_le (by omega)] at hl
    exact Option.noConfusion hl

theorem childrenDec_right {A : List Node} (hd : ChildrenDec A = true) {i r : Nat}
    (hr : (nodeAt A i).right = some r) : r < i := by
  by_cases hi : i < A.length
  · have h2 := List.all_eq_true.mp hd i (List.mem_range.mpr hi)
    rw [hr] at h2
    simp only [Bool.and_eq_true, decide_eq_true_eq] at h2
    exact h2.2
  · rw [nodeAt_of_length_le (by omega)] at hr
    exact Option.noConfusion hr

/-- On an arena with decreasing children, the fuelled Node.verify returns
true exactly when every node reachable from the start satisfies the per-node
validity condition. -/
theorem verifyNode_iff_reaches {hs : HashStrategy} {A : List Node}
    (hdec : ChildrenDec A = true) :
    ∀ i fuel, i < fuel →
      (verifyNode hs A fuel i = true ↔ ∀ j, Reaches A i j → ValidNode hs A j) := by
  intro i
  induction i using Nat.strong_induction_on with
  | _ i ih =>
    intro fuel hfuel
    obtain ⟨f2, rfl⟩ : ∃ f2, fuel = f2 + 1 := ⟨fuel - 1, by omega⟩
    cases hL : (nodeAt A i).left with
    | none =>
      cases hRt : (nodeAt A i).right with
      | none =>
        simp only [verifyNode, hL, hRt]
        constructor
        · intro _ j hj
          cases hj with
          | refl => exact Or.inl ⟨hL, hRt⟩
          | left hstep _ =>
            rw [hL] at hstep
            exact Option.noConfusion hstep
          | right hstep _ =>
            rw [hRt] at hstep
            exact Option.noConfusion hstep
        · intro _
          trivial
      | some r =>
        simp only [verifyNode, hL, hRt]
        constructor
        · intro hfalse
          exact Bool.noConfusion hfalse
        · intro hall
          rcases hall i (Reaches.refl i) with ⟨-, h2⟩ | ⟨l2, r2, h1, -, -⟩
          · rw [hRt] at h2
            exact Option.noConfusion h2
          · rw [hL] at h1
            exact Option.noConfusion h1
    | some l =>
      cases hRt : (nodeAt A i).right with
      | none =>
        simp only [verifyNode, hL, hRt]
        constructor
        · intro hfalse
          exact Bool.noConfusion hfalse
        · intro hall
          rcases hall i (Reaches.refl i) with ⟨h1, -⟩ | ⟨l2, r2, -, h2, -⟩
          · rw [hL] at h1
            exact Option.noConfusion h1
          · rw [hRt] at h2
            exact Option.noConfusion h2
      | some r =>
        have hli : l < i := childrenDec_left hdec hL
        have hri : r < i := childrenDec_right hdec hRt
        have ihl := ih l hli f2 (by omega)
        have ihr := ih r hri f2 (by omega)
        simp only [verifyNode, hL, hRt, Bool.and_eq_true, decide_eq_true_eq]
        constructor
        · rintro ⟨⟨hh, hvl⟩, hvr⟩ j hj
          cases hj with
          | refl => exact Or.inr ⟨l, r, hL, hRt, hh⟩
          | left hstep hrest =>
            rw [hL] at hstep
            obtain rfl := Option.some.inj hstep
            exact (ihl.mp hvl) j hrest
          | right hstep hrest =>
            rw [hRt] at hstep
            obtain rfl := Option.some.inj hstep
            exact (ihr.mp hvr) j hrest
        · intro hall
          refine ⟨⟨?_, ?_⟩, ?_⟩
          · rcases hall i (Reaches.refl i) with ⟨h1, -⟩ | ⟨l2, r2, h1, h2, h3⟩
            · rw [hL] at h1
              exact Option.noConfusion h1
            · rw [hL] at h1
              rw [hRt] at h2
              obtain rfl := Option.some.inj h1
              obtain rfl := Option.some.inj h2
              exact h3
          · exact ihl.mpr (fun j hj => hall j (Reaches.left hL hj))
          · exact ihr.mpr (fun j hj => hall j (Reaches.right hRt hj))

/-- A hand-made tree value with a strategy but no root pointer: its node
graph is empty. -/
def rootlessTree : MerkleTree := ⟨[], none, 0, [], some defaultHashStrategy⟩

/-- C6 counterexample: a present tree with a present strategy whose node
graph vacuously satisfies the per-node condition (it has no root, hence no
nodes), yet Verify returns false — the "exactly when" of the claim omits the
root-presence check the code performs. -/
theorem claim6_verify_cex :
    rootlessTree.hashStrategy = some defaultHashStrategy ∧
    (∀ j r, rootlessTree.root = some r → Reaches rootlessTree.arena r j →
      ValidNode defaultHashStrategy rootlessTree.arena j) ∧
    MerkleTree.Verify (some rootlessTree) = false := by
  refine ⟨rfl, ?_, rfl⟩
  intro j r hr hreach
  simp [rootlessTree] at hr

/-- C6 amended: Verify() is false for an absent tree, and on a present tree
(with child indices preceding parents, as in every tree this library
builds — the Go recursion does not terminate otherwise) it returns true
exactly when the strategy is present, a root node is present, and every node
reachable from the root has either both children with the stored hash equal
to HashInternal of the hashes of the children under the recorded strategy, or no
children; any reachable node with exactly one child makes it false. -/
theorem claim6_verify_semantics (m : MerkleTree)
    (hdec : ChildrenDec m.arena = true)
    (hroot : ∀ r, m.root = some r → r < m.arena.length) :
    MerkleTree.Verify none = false ∧
    (MerkleTree.Verify (some m) = true ↔
      ∃ hs r, m.hashStrategy = some hs ∧ m.root = some r ∧
        ∀ j, Reaches m.arena r j → ValidNode hs m.arena j) := by
  refine ⟨rfl, ?_⟩
  cases hr : m.root with
  | none =>
    simp only [MerkleTree.Verify, hr]
    constructor
    · intro hfalse
      exact Bool.noConfusion hfalse
    · rintro ⟨hs, r, -, hcontra, -⟩
      exact Option.noConfusion hcontra
  | some r =>
    cases hst : m.hashStrategy with
    | none =>
      simp only [MerkleTree.Verify, hr, hst]
      constructor
      · intro hfalse
        exact Bool.noConfusion hfalse
      · rintro ⟨hs, r2, hcontra, -, -⟩
        exact Option.noConfusion hcontra
    | some hs =>
      simp only [MerkleTree.Verify, hr, hst]
      have hiff := @verifyNode_iff_reaches hs m.arena hdec r m.arena.length (hroot r hr)
      constructor
      · intro hv
        exact ⟨hs, r, rfl, rfl, hiff.mp hv⟩
      · rintro ⟨hs2, r2, hst2, hr2, hall⟩
        obtain rfl := Option.some.inj hst2
        obtain rfl := Option.some.inj hr2
        exact hiff.mpr hall

theorem claim6_verify_semantics_witness :
    MerkleTree.Verify none = false ∧
    (MerkleTree.Verify (some egTreeDup) = true ↔
      ∃ hs r, egTreeDup.hashStrategy = some hs ∧ egTreeDup.root = some r ∧
        ∀ j, Reaches egTreeDup.arena r j → ValidNode hs egTreeDup.arena j) :=
  claim6_verify_semantics egTreeDup (by decide)
    (fun r hr => by simp [egTreeDup] at hr ⊢; omega)

/-! The three-leaf tree evaluated over symbolic items -/

/-- Building from three items: leaves 0,1,2; node 3 pairs leaves 0 and 1;
leaf 2 is promoted and pairs with node 3 under the root, node 4. -/
theorem build_three (hs : HashStrategy) (a b c : Bytes) :
    buildMerkleTree [a, b, c] hs = some
      ⟨[⟨hs.HashLeaf a, none, none, some 3⟩,
        ⟨hs.HashLeaf b, none, none, some 3⟩,
        ⟨hs.HashLeaf c, none, none, some 4⟩,
        ⟨hs.HashInternal (hs.HashLeaf a) (hs.HashLeaf b), some 0, some 1, some 4⟩,
        ⟨hs.HashInternal (hs.HashInternal (hs.HashLeaf a) (hs.HashLeaf b)) (hs.HashLeaf c),
          some 3, some 2, none⟩],
       some 4, 5, [0, 1, 2], some hs⟩ := by
  have h1 : ([a, b, c] : List Bytes).length = 3 := rfl
  have h2 : List.range 3 = [0, 1, 2] := rfl
  have step1 : reduceAux hs 3
      [⟨hs.HashLeaf a, none, none, none⟩, ⟨hs.HashLeaf b, none, none, none⟩,
       ⟨hs.HashLeaf c, none, none, none⟩] [0, 1, 2] 3 =
      reduceAux hs 2
      [⟨hs.HashLeaf a, none, none, some 3⟩,
       ⟨hs.HashLeaf b, none, none, some 3⟩,
       ⟨hs.HashLeaf c, none, none, none⟩,
       ⟨hs.HashInternal (hs.HashLeaf a) (hs.HashLeaf b), some 0, some 1, none⟩] [3, 2] 4 := by
    rfl
  have step2 : reduceAux hs 2
      [⟨hs.HashLeaf a, none, none, some 3⟩,
       ⟨hs.HashLeaf b, none, none, some 3⟩,
       ⟨hs.HashLeaf c, none, none, none⟩,
       ⟨hs.HashInternal (hs.HashLeaf a) (hs.HashLeaf b), some 0, some 1, none⟩] [3, 2] 4 =
      ([⟨hs.HashLeaf a, none, none, some 3⟩,
        ⟨hs.HashLeaf b, none, none, some 3⟩,
        ⟨hs.HashLeaf c, none, none, some 4⟩,
        ⟨hs.HashInternal (hs.HashLeaf a) (hs.HashLeaf b), some 0, some 1, some 4⟩,
        ⟨hs.HashInternal (hs.HashInternal (hs.HashLeaf a) (hs.HashLeaf b)) (hs.HashLeaf c),
          some 3, some 2, none⟩], 4, 5) := by
    rfl
  simp only [buildMerkleTree, h1, h2, List.isEmpty_cons, List.map_cons, List.map_nil,
    Bool.false_eq_true, if_false, step1, step2, Nat.cast_ofNat]

/-- The length of every SHA-256 digest is 32 bytes. -/
theorem length_HashSHA256 (b : Bytes) : (HashSHA256 b).length = 32 := rfl

/-- The proof for the promoted third item: one climb step from leaf 2 to the
root, recording the hash of node 3 as a left sibling. -/
theorem proof_three (hs : HashStrategy) (a b c : Bytes) :
    MerkleTree.Proof (buildMerkleTree [a, b, c] hs) c = some (Except.ok
      ⟨hs.HashInternal (hs.HashInternal (hs.HashLeaf a) (hs.HashLeaf b)) (hs.HashLeaf c),
       [hs.HashInternal (hs.HashLeaf a) (hs.HashLeaf b)], [true], some hs⟩) := by
  rw [build_three hs a b c]
  set A : List Node :=
    [⟨hs.HashLeaf a, none, none, some 3⟩,
     ⟨hs.HashLeaf b, none, none, some 3⟩,
     ⟨hs.HashLeaf c, none, none, some 4⟩,
     ⟨hs.HashInternal (hs.HashLeaf a) (hs.HashLeaf b), some 0, some 1, some 4⟩,
     ⟨hs.HashInternal (hs.HashInternal (hs.HashLeaf a) (hs.HashLeaf b)) (hs.HashLeaf c),
       some 3, some 2, none⟩] with hA
  have hok : ArenaOK hs A := by
    intro i
    match i with
    | 0 => exact Or.inl ⟨by rw [hA]; rfl, by rw [hA]; rfl⟩
    | 1 => exact Or.inl ⟨by rw [hA]; rfl, by rw [hA]; rfl⟩
    | 2 => exact Or.inl ⟨by rw [hA]; rfl, by rw [hA]; rfl⟩
    | 3 =>
      refine Or.inr ⟨0, 1, by rw [hA]; rfl, by rw [hA]; rfl, by omega, by omega, ?_⟩
      rw [hA]
      rfl
    | 4 =>
      refine Or.inr ⟨3, 2, by rw [hA]; rfl, by rw [hA]; rfl, by omega, by omega, ?_⟩
      rw [hA]
      rfl
    | i + 5 =>
      refine nodeOK_default ?_
      rw [hA]
      simp
  have hfind : findLeaf A (hs.HashLeaf c) [0, 1, 2] = some 2 := by
    rw [hA]
    simp [findLeaf, nodeAt]
  have hver : MerkleTree.Verify (some ⟨A, some 4, 5, [0, 1, 2], some hs⟩) = true := by
    simp only [MerkleTree.Verify]
    exact verifyNode_true hok A.length 4 (by rw [hA]; simp)
  have hVE : MerkleTree.VerifyExists ⟨A, some 4, 5, [0, 1, 2], some hs⟩ c
      = some (some 2, none) := by
    simp only [MerkleTree.VerifyExists, hfind, hver]
    simp
  simp only [MerkleTree.Proof, hVE]
  rw [hA]
  rfl

/-- C3: For items "a","b","c" (bytes 97, 98, 99) under the default strategy,
Root equals HashInternal(HashInternal(HashLeaf(a), HashLeaf(b)),
HashLeaf(c)); the proof for "a" carries that same root, the siblings
HashLeaf(b) then HashLeaf(c) in leaf-to-root order, and direction flags
false, false (the sibling is not-left at both levels). -/
theorem claim3_concrete_scenario :
    MerkleTree.Root (BuildMerkleTree [[97], [98], [99]]) =
      some (defaultHashStrategy.HashInternal
        (defaultHashStrategy.HashInternal (defaultHashStrategy.HashLeaf [97])
          (defaultHashStrategy.HashLeaf [98]))
        (defaultHashStrategy.HashLeaf [99])) ∧
    proofRoot (MerkleTree.Proof (BuildMerkleTree [[97], [98], [99]]) [97]) =
      some (defaultHashStrategy.HashInternal
        (defaultHashStrategy.HashInternal (defaultHashStrategy.HashLeaf [97])
          (defaultHashStrategy.HashLeaf [98]))
        (defaultHashStrategy.HashLeaf [99])) ∧
    proofSiblings (MerkleTree.Proof (BuildMerkleTree [[97], [98], [99]]) [97]) =
      some [defaultHashStrategy.HashLeaf [98], defaultHashStrategy.HashLeaf [99]] ∧
    proofLeft (MerkleTree.Proof (BuildMerkleTree [[97], [98], [99]]) [97]) =
      some [false, false] := by
  decide

/-- C4: For every 3-item input, the proof for the third (promoted) item has
path length exactly 1: its single sibling is
HashInternal(HashLeaf(a), HashLeaf(b)) with left-sibling flag true — not 2 —
and no byte sequence in the proof (root or sibling, each a 32-byte digest)
equals the 64-byte sequence HashLeaf(c) duplicated. -/
theorem claim4_promotion_not_duplication (a b c : Bytes) :
    proofSiblings (MerkleTree.Proof (BuildMerkleTree [a, b, c]) c) =
      some [defaultHashStrategy.HashInternal (defaultHashStrategy.HashLeaf a)
        (defaultHashStrategy.HashLeaf b)] ∧
    proofLeft (MerkleTree.Proof (BuildMerkleTree [a, b, c]) c) = some [true] ∧
    (∀ s, proofSiblings (MerkleTree.Proof (BuildMerkleTree [a, b, c]) c) = some s →
      s.length = 1) ∧
    ∀ bs ∈ proofByteSeqs (MerkleTree.Proof (BuildMerkleTree [a, b, c]) c),
      bs ≠ defaultHashStrategy.HashLeaf c ++ defaultHashStrategy.HashLeaf c := by
  have hp : MerkleTree.Proof (BuildMerkleTree [a, b, c]) c = some (Except.ok
      ⟨defaultHashStrategy.HashInternal
         (defaultHashStrategy.HashInternal (defaultHashStrategy.HashLeaf a)
           (defaultHashStrategy.HashLeaf b)) (defaultHashStrategy.HashLeaf c),
       [defaultHashStrategy.HashInternal (defaultHashStrategy.HashLeaf a)
         (defaultHashStrategy.HashLeaf b)],
       [true], some defaultHashStrategy⟩) :=
    proof_three defaultHashStrategy a b c
  refine ⟨?_, ?_, ?_, ?_⟩
  · rw [hp]
    rfl
  · rw [hp]
    rfl
  · intro s hs2
    rw [hp] at hs2
    simp only [proofSiblings, Option.some.injEq] at hs2
    rw [← hs2]
    rfl
  · intro bs hbs heq
    rw [hp] at hbs
    simp only [proofByteSeqs, List.mem_cons, List.not_mem_nil, or_false] at hbs
    have h32 : bs.length = 32 := by
      rcases hbs with rfl | rfl
      · exact length_HashSHA256 _
      · exact length_HashSHA256 _
    rw [heq, List.length_append] at h32
    have h1 : (defaultHashStrategy.HashLeaf c).length = 32 := length_HashSHA256 _
    omega

end GoMerkleTree
